import Mathlib

/-!
# Scoped symbol table (`symtable.h`)

A shallow embedding of the class template `symtable<KeyT, SymbolT>` of
`src/symtable.h` and proofs of its contract.

Modelling decisions.

* `std::map<KeyT, SymbolT>` is a list of entries whose keys are strictly
  ascending (`StdMap`); `KeyT` carries a linear order, the comparison
  `std::less<KeyT>` of the container.  `count`, `at`, `operator[]`
  followed by assignment, and `size` are the members the class calls.
* `std::deque<Scope>` is a `List`, the head being `front()` and the last
  element `back()`; `push_front`/`pop_front` are cons and tail.
* The member `int Size` is an `Int`; the arithmetic of the class is the
  arithmetic of `Int` as long as the symbol count fits an `int`.
* A member function that throws returns an `Except Exception`; a member
  function that is not `const` also returns the table it leaves behind, on
  both the normal and the throwing path.
* `lookup` receives the caller's `symbol` and returns the `bool` together
  with the content of the reference parameter at return.
* `dump` returns the lines it writes to the stream.  What `operator<<` writes
  for an `int`, a `KeyT` and a `SymbolT` depends on the stream and on the
  types, so the three are parameters of `dump`.
-/

namespace SymTable

/-- The standard exceptions the code can raise: `runtime_error` thrown by the
class itself, `out_of_range` thrown by `std::map::at`. -/
inductive Exception where
  | runtime_error (what : String)
  | out_of_range (what : String)
  deriving DecidableEq, Repr

/-! ## `std::map` -/

section Entries

variable {K V : Type} [LinearOrder K]

/-- Search of the entry whose key is `k`. -/
def findEntry (k : K) : List (K × V) → Option V
  | [] => none
  | e :: rest => if k = e.1 then some e.2 else findEntry k rest

/-- Effect of `m[k] = v` on the ascending entry list: the value of an
existing entry is overwritten, a missing entry is created at its place in
the key order. -/
def assignEntry (k : K) (v : V) : List (K × V) → List (K × V)
  | [] => [(k, v)]
  | e :: rest =>
    if k < e.1 then (k, v) :: e :: rest
    else if e.1 < k then e :: assignEntry k v rest
    else (e.1, v) :: rest

/-- The keys of an entry list, in list order. -/
def entryKeys (l : List (K × V)) : List K := l.map Prod.fst

end Entries

/-- A `std::map<K, V>`: entries in strictly ascending key order (hence with
pairwise distinct keys). -/
structure StdMap (K V : Type) [LinearOrder K] where
  entries : List (K × V)
  ascending : (entryKeys entries).Pairwise (fun a b => a < b)

namespace StdMap

variable {K V : Type} [LinearOrder K]

/-- The keys a list holds after `assignEntry` are the new key and the old
keys. -/
theorem mem_entryKeys_assignEntry (k : K) (v : V) (l : List (K × V)) (j : K) :
    j ∈ entryKeys (assignEntry k v l) ↔ j = k ∨ j ∈ entryKeys l := by
  induction l with
  | nil => simp [assignEntry, entryKeys]
  | cons e rest ih =>
    unfold assignEntry
    by_cases h1 : k < e.1
    · simp [h1, entryKeys]
    · by_cases h2 : e.1 < k
      · have ih2 : j ∈ List.map Prod.fst (assignEntry k v rest) ↔
            j = k ∨ j ∈ List.map Prod.fst rest := ih
        simp only [h1, h2, if_true, if_false, entryKeys, List.map_cons, List.mem_cons, ih2]
        tauto
      · have hk : e.1 = k := le_antisymm (not_lt.mp h1) (not_lt.mp h2)
        simp [h1, h2, entryKeys, hk]

/-- The assignment `m[k] = v` keeps the keys strictly ascending. -/
theorem ascending_assignEntry (k : K) (v : V) (l : List (K × V))
    (h : (entryKeys l).Pairwise (fun a b => a < b)) :
    (entryKeys (assignEntry k v l)).Pairwise (fun a b => a < b) := by
  induction l with
  | nil => simp [assignEntry, entryKeys]
  | cons e rest ih =>
    have hcons : (e.1 :: entryKeys rest).Pairwise (fun a b => a < b) := h
    obtain ⟨hhead, htail⟩ := List.pairwise_cons.mp hcons
    unfold assignEntry
    by_cases h1 : k < e.1
    · simp only [h1, if_true]
      show (k :: e.1 :: entryKeys rest).Pairwise (fun a b => a < b)
      refine List.pairwise_cons.mpr ⟨?_, hcons⟩
      intro j hj
      rcases List.mem_cons.mp hj with rfl | hj
      · exact h1
      · exact lt_trans h1 (hhead j hj)
    · by_cases h2 : e.1 < k
      · simp only [h1, h2, if_true, if_false]
        show (e.1 :: entryKeys (assignEntry k v rest)).Pairwise (fun a b => a < b)
        refine List.pairwise_cons.mpr ⟨?_, ih htail⟩
        intro j hj
        rcases (mem_entryKeys_assignEntry k v rest j).mp hj with rfl | hj
        · exact h2
        · exact hhead j hj
      · simp only [h1, h2, if_false]
        exact hcons

/-- The map a default-constructed `std::map` is. -/
def empty : StdMap K V := ⟨[], List.Pairwise.nil⟩

/-- Member `size()`: the number of entries. -/
def size (m : StdMap K V) : Nat := m.entries.length

/-- Member `count(k)`: the number of entries whose key is `k`, which for a
map is 1 when the key is found and 0 otherwise. -/
def count (m : StdMap K V) (k : K) : Nat :=
  if (findEntry k m.entries).isSome then 1 else 0

/-- Member `at(k)`: the mapped value, or `std::out_of_range` when the map
has no such key. -/
def atKey (m : StdMap K V) (k : K) : Except Exception V :=
  match findEntry k m.entries with
  | some v => .ok v
  | none => .error (.out_of_range "map::at")

/-- The statement `m[k] = v`. -/
def assign (m : StdMap K V) (k : K) (v : V) : StdMap K V :=
  ⟨assignEntry k v m.entries, ascending_assignEntry k v m.entries m.ascending⟩

end StdMap

/-! ## The class `symtable` -/

/-- The nested class `Scope`: a name and the symbols of the scope. -/
structure Scope (K V : Type) [LinearOrder K] where
  Name : String
  Symbols : StdMap K V

/-- The enumeration `ScopeOption`. -/
inductive ScopeOption where
  | ALL
  | CURRENT
  | GLOBAL
  deriving DecidableEq, Repr

/-- The data members of `symtable`: the counter `Size` and the deque `deck`,
whose front is the head of the list. -/
structure symtable (K V : Type) [LinearOrder K] where
  Size : Int
  deck : List (Scope K V)

namespace symtable

variable {K V : Type} [LinearOrder K]

/-- The default constructor: `Size = 0` and an empty deque. -/
def new : symtable K V := { Size := 0, deck := [] }

/-- Member `size()`. -/
def size (t : symtable K V) : Int := t.Size

/-- Member `numscopes()`. -/
def numscopes (t : symtable K V) : Int := (t.deck.length : Int)

/-- Member `enterScope(name)`: a scope with that name and no symbols is
pushed at the front. -/
def enterScope (t : symtable K V) (name : String) : symtable K V :=
  let thisScope : Scope K V := { Name := name, Symbols := StdMap.empty }
  { t with deck := thisScope :: t.deck }

/-- Member `exitScope()`.  The difference `Size - deck.front().Symbols.size()`
is computed in `size_t` and narrowed to `int`, which is the integer difference
as long as it fits an `int`. -/
def exitScope (t : symtable K V) : Except Exception Unit × symtable K V :=
  match t.deck with
  | [] => (.error (.runtime_error "symtable::exitScape: empty"), t)
  | front :: rest => (.ok (), { Size := t.Size - (front.Symbols.size : Int), deck := rest })

/-- Member `curScope()`. -/
def curScope (t : symtable K V) : Except Exception (Scope K V) :=
  match t.deck with
  | [] => .error (.runtime_error "symtable::exitScape: empty")
  | front :: _ => .ok front

/-- Member `insert(key, symbol)`. -/
def insert (t : symtable K V) (key : K) (symbol : V) :
    Except Exception Unit × symtable K V :=
  match t.deck with
  | [] => (.error (.runtime_error "symtable::exitScape: empty"), t)
  | front :: rest =>
    if front.Symbols.count key = 1 then
      (.ok (), { t with deck := { front with Symbols := front.Symbols.assign key symbol } :: rest })
    else
      (.ok (), { Size := t.Size + 1,
                 deck := { front with Symbols := front.Symbols.assign key symbol } :: rest })

/-- The test `count(key) == 1` followed by `symbol = at(key); return true`,
on one scope; `none` when the test fails and control goes on. -/
def lookupIn (i : Scope K V) (key : K) : Option (Except Exception (Bool × V)) :=
  if i.Symbols.count key = 1 then
    some ((i.Symbols.atKey key).map (fun v => (true, v)))
  else none

/-- The range-based loop of `lookup` under `ScopeOption::ALL`, from the front
of the deque to its back, and the final `return false`. -/
def lookupLoop (key : K) (symbol : V) : List (Scope K V) → Except Exception (Bool × V)
  | [] => .ok (false, symbol)
  | i :: rest =>
    match lookupIn i key with
    | some r => r
    | none => lookupLoop key symbol rest

/-- Member `lookup(key, symbol, option)`: the result pairs the returned
`bool` with the content of `symbol` at return.  The three `if` statements
test the one `option`, so one of them is entered; each ends in the common
`return false` when it does not return `true`. -/
def lookup (t : symtable K V) (key : K) (symbol : V) (option : ScopeOption) :
    Except Exception (Bool × V) :=
  match t.deck with
  | [] => .error (.runtime_error "symtable::exitScope: empty")
  | front :: rest =>
    match option with
    | .CURRENT =>
      match lookupIn front key with
      | some r => r
      | none => .ok (false, symbol)
    | .GLOBAL =>
      match lookupIn ((front :: rest).getLast (List.cons_ne_nil front rest)) key with
      | some r => r
      | none => .ok (false, symbol)
    | .ALL => lookupLoop key symbol (front :: rest)

/-- The loop `for (auto const& pair : Symbols)` of `dump`, whose body is
`output << pair.first << ": " << pair.second << endl`.  The text a stream
holds is the list of its lines, each ended by an `endl`; `showKey` and
`showSymbol` are the `operator<<` of `KeyT` and `SymbolT`. -/
def dumpSymbols (showKey : K → String) (showSymbol : V → String) (output : List String) :
    List (K × V) → List String
  | [] => output
  | pair :: rest =>
    dumpSymbols showKey showSymbol (output ++ [showKey pair.1 ++ ": " ++ showSymbol pair.2]) rest

/-- The statement `output << "** " << scope.Name << " **" << endl` followed
by the loop over the symbols of the scope. -/
def dumpScope (showKey : K → String) (showSymbol : V → String) (output : List String)
    (scope : Scope K V) : List String :=
  dumpSymbols showKey showSymbol (output ++ ["** " ++ scope.Name ++ " **"])
    scope.Symbols.entries

/-- The loop `for (int i = 0; i < deck.size(); i++)` of `dump`, which visits
`deck[0]`, the front, first. -/
def dumpLoop (showKey : K → String) (showSymbol : V → String) (output : List String) :
    List (Scope K V) → List String
  | [] => output
  | scope :: rest => dumpLoop showKey showSymbol (dumpScope showKey showSymbol output scope) rest

/-- Member `dump(output, option)`: the lines written to the stream.  The
values of `numscopes()` and `size()` are written with `operator<<(int)` of
the caller's stream, whose text depends on the format flags of that stream
(base, sign): `showInt` is that operator.  The function has no `throw`; under
`CURRENT` and `GLOBAL` it calls `deck.front()` and `deck.back()` without a
test of `deck.empty()`, which on an empty deque is undefined behaviour: the
result is then `none`. -/
def dump (t : symtable K V) (showInt : Int → String) (showKey : K → String)
    (showSymbol : V → String) (option : ScopeOption) : Option (List String) :=
  let output := ["**************************************************"]
  match option with
  | .ALL =>
    let output := output ++ ["*************** SYMBOL TABLE (ALL) ***************"]
    let output := output ++ ["** # of scopes: " ++ showInt t.numscopes]
    let output := output ++ ["** # of symbols: " ++ showInt t.size]
    let output := dumpLoop showKey showSymbol output t.deck
    some (output ++ ["**************************************************"])
  | .CURRENT =>
    let output := output ++ ["*************** SYMBOL TABLE (CUR) ***************"]
    let output := output ++ ["** # of scopes: " ++ showInt t.numscopes]
    let output := output ++ ["** # of symbols: " ++ showInt t.size]
    match t.deck.head? with
    | none => none
    | some front =>
      let output := dumpScope showKey showSymbol output front
      some (output ++ ["**************************************************"])
  | .GLOBAL =>
    let output := output ++ ["*************** SYMBOL TABLE (GBL) ***************"]
    let output := output ++ ["** # of scopes: " ++ showInt t.numscopes]
    let output := output ++ ["** # of symbols: " ++ showInt t.size]
    match t.deck.getLast? with
    | none => none
    | some back =>
      let output := dumpScope showKey showSymbol output back
      some (output ++ ["**************************************************"])

/-- A call of one of the member functions that are not `const`. -/
inductive Call (K V : Type) where
  | enterScope (name : String)
  | exitScope
  | insert (key : K) (symbol : V)

/-- The call is an `enterScope`. -/
def Call.isEnter : Call K V → Bool
  | .enterScope _ => true
  | _ => false

/-- The call is an `exitScope`. -/
def Call.isExit : Call K V → Bool
  | .exitScope => true
  | _ => false

/-- The table a call leaves behind, whether it returns or throws. -/
def perform (t : symtable K V) : Call K V → symtable K V
  | .enterScope name => t.enterScope name
  | .exitScope => t.exitScope.2
  | .insert key symbol => (t.insert key symbol).2

/-- The table a sequence of calls leaves behind, the calls made in list
order. -/
def performAll (t : symtable K V) (calls : List (Call K V)) : symtable K V :=
  calls.foldl perform t

/-- Successive `enterScope` calls, one per name, in list order. -/
def enterScopes (t : symtable K V) (names : List String) : symtable K V :=
  names.foldl enterScope t

/-- Successive `insert` calls, one per pair, in list order. -/
def inserts (t : symtable K V) (pairs : List (K × V)) : symtable K V :=
  pairs.foldl (fun t pair => (t.insert pair.1 pair.2).2) t

/-- The number of distinct keys of the scopes of a deque taken together: a
key that several scopes bind is counted once.  This is the count the
specification names; the class does not compute it. -/
def distinctKeyCount (d : List (Scope K V)) : Nat :=
  ((d.map (fun s => entryKeys s.Symbols.entries)).flatten.dedup).length

/-- The sum of the numbers of bindings of the scopes of a deque. -/
def bindingCount (d : List (Scope K V)) : Int :=
  (d.map (fun s => (s.Symbols.size : Int))).sum

end symtable

/-- The table after `enterScope("g"); insert(1, 10); insert(2, 5);
enterScope("f"); insert(1, 20)`, keys and symbols being numbers. -/
def sampleTable : symtable Nat Nat :=
  symtable.performAll symtable.new
    [.enterScope "g", .insert 1 10, .insert 2 5, .enterScope "f", .insert 1 20]

/-- The table after `enterScope("g"); insert(1, 1); enterScope("f");
insert(1, 2)`: the same key is bound in both scopes. -/
def shadowedTable : symtable Nat Nat :=
  symtable.performAll symtable.new
    [.enterScope "g", .insert 1 1, .enterScope "f", .insert 1 2]

/-- The table after `enterScope("g"); insert(1, 10)`. -/
def outerTable : symtable Nat Nat :=
  symtable.performAll symtable.new [.enterScope "g", .insert 1 10]

/-- Scope `s` binds key `k` to value `v`. -/
def Scope.binds {K V : Type} [LinearOrder K] (s : Scope K V) (k : K) (v : V) : Prop :=
  (k, v) ∈ s.Symbols.entries

/-- Scope `s` has a binding of key `k`. -/
def Scope.hasKey {K V : Type} [LinearOrder K] (s : Scope K V) (k : K) : Prop :=
  k ∈ entryKeys s.Symbols.entries

instance {K V : Type} [LinearOrder K] [DecidableEq V] (s : Scope K V) (k : K) (v : V) :
    Decidable (s.binds k v) :=
  inferInstanceAs (Decidable ((k, v) ∈ s.Symbols.entries))

instance {K V : Type} [LinearOrder K] (s : Scope K V) (k : K) : Decidable (s.hasKey k) :=
  inferInstanceAs (Decidable (k ∈ entryKeys s.Symbols.entries))

/-! ## Facts about the map model -/

section MapFacts

variable {K V : Type} [LinearOrder K]

theorem findEntry_isSome_iff (k : K) (l : List (K × V)) :
    (findEntry k l).isSome = true ↔ k ∈ entryKeys l := by
  induction l with
  | nil => simp [findEntry, entryKeys]
  | cons e rest ih =>
    unfold findEntry
    by_cases h : k = e.1
    · simp [h, entryKeys]
    · have ih2 : (findEntry k rest).isSome = true ↔ k ∈ List.map Prod.fst rest := ih
      simp [h, entryKeys, ih2]

theorem findEntry_eq_none_iff (k : K) (l : List (K × V)) :
    findEntry k l = none ↔ k ∉ entryKeys l := by
  rw [← findEntry_isSome_iff]
  cases findEntry k l <;> simp

theorem findEntry_eq_some_iff (k : K) (v : V) (l : List (K × V))
    (h : (entryKeys l).Pairwise (fun a b => a < b)) :
    findEntry k l = some v ↔ (k, v) ∈ l := by
  induction l with
  | nil => simp [findEntry]
  | cons e rest ih =>
    have hcons : (e.1 :: entryKeys rest).Pairwise (fun a b => a < b) := h
    obtain ⟨hhead, htail⟩ := List.pairwise_cons.mp hcons
    unfold findEntry
    by_cases hk : k = e.1
    · subst hk
      simp only [if_true, Option.some.injEq, List.mem_cons]
      constructor
      · intro hv
        left
        rw [← hv]
      · rintro (heq | hmem)
        · rw [← heq]
        · have : e.1 ∈ entryKeys rest := List.mem_map.mpr ⟨(e.1, v), hmem, rfl⟩
          exact absurd (hhead e.1 this) (lt_irrefl _)
    · simp only [hk, if_false, List.mem_cons, ih htail]
      constructor
      · exact fun hmem => Or.inr hmem
      · rintro (heq | hmem)
        · exact absurd (congrArg Prod.fst heq) hk
        · exact hmem

theorem length_assignEntry (k : K) (v : V) (l : List (K × V))
    (h : (entryKeys l).Pairwise (fun a b => a < b)) :
    (assignEntry k v l).length = if k ∈ entryKeys l then l.length else l.length + 1 := by
  induction l with
  | nil => simp [assignEntry, entryKeys]
  | cons e rest ih =>
    have hcons : (e.1 :: entryKeys rest).Pairwise (fun a b => a < b) := h
    obtain ⟨hhead, htail⟩ := List.pairwise_cons.mp hcons
    have hkeys : entryKeys (e :: rest) = e.1 :: entryKeys rest := rfl
    unfold assignEntry
    by_cases h1 : k < e.1
    · have hnot : k ∉ e.1 :: entryKeys rest := by
        intro hmem
        rcases List.mem_cons.mp hmem with heq | hmem
        · exact absurd h1 (heq ▸ lt_irrefl _)
        · exact absurd (lt_trans h1 (hhead k hmem)) (lt_irrefl _)
      simp [h1, hkeys, hnot]
    · by_cases h2 : e.1 < k
      · have hne : k ≠ e.1 := fun heq => absurd h2 (heq ▸ lt_irrefl _)
        simp only [h1, h2, if_true, if_false, hkeys, List.length_cons, List.mem_cons, hne,
          false_or, ih htail]
        split <;> rfl
      · have hk : k = e.1 := le_antisymm (not_lt.mp h2) (not_lt.mp h1)
        simp [h1, h2, hkeys, hk]

theorem findEntry_assignEntry (j k : K) (v : V) (l : List (K × V)) :
    findEntry j (assignEntry k v l) = if j = k then some v else findEntry j l := by
  induction l with
  | nil =>
    by_cases hj : j = k <;> simp [assignEntry, findEntry, hj]
  | cons e rest ih =>
    unfold assignEntry
    by_cases h1 : k < e.1
    · by_cases hj : j = k <;> simp [h1, findEntry, hj]
    · by_cases h2 : e.1 < k
      · simp only [h1, h2, if_true, if_false]
        by_cases hj : j = k
        · subst hj
          have hne : ¬ j = e.1 := fun heq => absurd h2 (heq ▸ lt_irrefl _)
          simp only [findEntry, hne, if_false, ih, if_true]
        · simp only [findEntry, ih, hj, if_false]
      · have hk : k = e.1 := le_antisymm (not_lt.mp h2) (not_lt.mp h1)
        by_cases hj : j = k
        · simp [h1, h2, findEntry, hj, hk]
        · have hne : ¬ j = e.1 := hk ▸ hj
          simp [h1, h2, findEntry, hj, hne]

theorem StdMap.count_eq_one_iff (m : StdMap K V) (k : K) :
    m.count k = 1 ↔ k ∈ entryKeys m.entries := by
  unfold StdMap.count
  rw [← findEntry_isSome_iff]
  split <;> simp_all

theorem StdMap.size_assign (m : StdMap K V) (k : K) (v : V) :
    (m.assign k v).size = if m.count k = 1 then m.size else m.size + 1 := by
  unfold StdMap.assign StdMap.size
  simp only [length_assignEntry k v m.entries m.ascending, StdMap.count_eq_one_iff]

/-- The keys of a map are pairwise distinct. -/
theorem StdMap.dedup_keys (m : StdMap K V) :
    (entryKeys m.entries).dedup = entryKeys m.entries :=
  List.Nodup.dedup (List.Pairwise.imp (fun hab => ne_of_lt hab) m.ascending)

end MapFacts

/-! ## Facts about the member functions -/

section TableFacts

variable {K V : Type} [LinearOrder K]

open symtable

theorem Scope.hasKey_iff_exists_binds (s : Scope K V) (k : K) :
    s.hasKey k ↔ ∃ v, s.binds k v := by
  unfold Scope.hasKey Scope.binds entryKeys
  constructor
  · intro h
    obtain ⟨e, he, hk⟩ := List.mem_map.mp h
    exact ⟨e.2, by rw [← hk]; exact he⟩
  · rintro ⟨v, hv⟩
    exact List.mem_map.mpr ⟨(k, v), hv, rfl⟩

theorem symtable.lookupIn_of_binds (s : Scope K V) (k : K) (v : V) (h : s.binds k v) :
    lookupIn s k = some (.ok (true, v)) := by
  have hfind : findEntry k s.Symbols.entries = some v :=
    (findEntry_eq_some_iff k v s.Symbols.entries s.Symbols.ascending).mpr h
  simp [lookupIn, StdMap.count, StdMap.atKey, hfind, Except.map]

theorem symtable.lookupIn_of_not_hasKey (s : Scope K V) (k : K) (h : ¬ s.hasKey k) :
    lookupIn s k = none := by
  have hfind : findEntry k s.Symbols.entries = none :=
    (findEntry_eq_none_iff k s.Symbols.entries).mpr h
  simp [lookupIn, StdMap.count, hfind]

/-- What `lookupIn` returns is decided by the bindings of the scope. -/
theorem symtable.lookupIn_cases (s : Scope K V) (k : K) :
    (¬ s.hasKey k ∧ lookupIn s k = none) ∨
    (∃ v, s.binds k v ∧ lookupIn s k = some (.ok (true, v))) := by
  by_cases h : s.hasKey k
  · obtain ⟨v, hv⟩ := (Scope.hasKey_iff_exists_binds s k).mp h
    exact Or.inr ⟨v, hv, lookupIn_of_binds s k v hv⟩
  · exact Or.inl ⟨h, lookupIn_of_not_hasKey s k h⟩

/-- A scope binds a key to one value at most. -/
theorem Scope.binds_unique (s : Scope K V) (k : K) (v w : V)
    (hv : s.binds k v) (hw : s.binds k w) : v = w := by
  have h1 := (findEntry_eq_some_iff k v s.Symbols.entries s.Symbols.ascending).mpr hv
  have h2 := (findEntry_eq_some_iff k w s.Symbols.entries s.Symbols.ascending).mpr hw
  rw [h1] at h2
  exact Option.some.inj h2

theorem symtable.lookupLoop_skip (k : K) (symbol : V) (above rest : List (Scope K V))
    (h : ∀ s ∈ above, ¬ s.hasKey k) :
    lookupLoop k symbol (above ++ rest) = lookupLoop k symbol rest := by
  induction above with
  | nil => rfl
  | cons a above ih =>
    have ha : lookupIn a k = none := lookupIn_of_not_hasKey a k (h a (List.mem_cons_self _ _))
    simp only [List.cons_append, lookupLoop, ha]
    exact ih (fun s hs => h s (List.mem_cons_of_mem _ hs))

theorem symtable.lookupLoop_hit (k : K) (symbol v : V) (s : Scope K V)
    (below : List (Scope K V)) (h : s.binds k v) :
    lookupLoop k symbol (s :: below) = .ok (true, v) := by
  simp only [lookupLoop, lookupIn_of_binds s k v h]

/-- The loop returns either not-found with the symbol untouched, no scope
having the key, or found with the value of the first scope that has it. -/
theorem symtable.lookupLoop_cases (k : K) (symbol : V) (d : List (Scope K V)) :
    ((∀ s ∈ d, ¬ s.hasKey k) ∧ lookupLoop k symbol d = .ok (false, symbol)) ∨
    (∃ above s below v, d = above ++ s :: below ∧ (∀ a ∈ above, ¬ a.hasKey k) ∧
      s.binds k v ∧ lookupLoop k symbol d = .ok (true, v)) := by
  induction d with
  | nil => exact Or.inl ⟨fun s hs => absurd hs (List.not_mem_nil s), rfl⟩
  | cons a d ih =>
    rcases lookupIn_cases a k with ⟨hno, hnone⟩ | ⟨v, hv, _⟩
    · rcases ih with ⟨hall, hres⟩ | ⟨above, s, below, v, hd, habove, hs, hres⟩
      · left
        refine ⟨?_, ?_⟩
        · intro s hs
          rcases List.mem_cons.mp hs with rfl | hs
          · exact hno
          · exact hall s hs
        · simp only [lookupLoop, hnone, hres]
      · right
        refine ⟨a :: above, s, below, v, by rw [hd]; rfl, ?_, hs, ?_⟩
        · intro b hb
          rcases List.mem_cons.mp hb with rfl | hb
          · exact hno
          · exact habove b hb
        · simp only [lookupLoop, hnone, hres]
    · exact Or.inr ⟨[], a, d, v, rfl, fun b hb => absurd hb (List.not_mem_nil b), hv,
        lookupLoop_hit k symbol v a d hv⟩

theorem symtable.lookup_ALL_eq (t : symtable K V) (k : K) (symbol : V) (h : t.deck ≠ []) :
    t.lookup k symbol .ALL = lookupLoop k symbol t.deck := by
  unfold lookup
  cases hd : t.deck with
  | nil => exact absurd hd h
  | cons front rest => rfl

theorem symtable.bindingCount_cons (s : Scope K V) (d : List (Scope K V)) :
    bindingCount (s :: d) = (s.Symbols.size : Int) + bindingCount d := by
  simp [bindingCount]

/-- Every call keeps the counter equal to the number of bindings held. -/
theorem symtable.perform_keeps_count (t : symtable K V) (c : Call K V)
    (h : t.Size = bindingCount t.deck) :
    (perform t c).Size = bindingCount (perform t c).deck := by
  cases c with
  | enterScope name =>
    simp [perform, enterScope, bindingCount_cons, StdMap.size, StdMap.empty, h]
  | exitScope =>
    unfold perform exitScope
    cases hd : t.deck with
    | nil => simp only [h, hd]
    | cons front rest =>
      simp only [h, hd, bindingCount_cons]
      omega
  | insert key symbol =>
    unfold perform insert
    cases hd : t.deck with
    | nil => simp only [h, hd]
    | cons front rest =>
      by_cases hc : front.Symbols.count key = 1
      · simp only [hc, if_true, bindingCount_cons, StdMap.size_assign, h, hd]
      · simp only [hc, if_false, bindingCount_cons, StdMap.size_assign, h, hd]
        push_cast
        omega

theorem symtable.performAll_keeps_count (calls : List (Call K V)) (t : symtable K V)
    (h : t.Size = bindingCount t.deck) :
    (performAll t calls).Size = bindingCount (performAll t calls).deck := by
  induction calls generalizing t with
  | nil => exact h
  | cons c calls ih => exact ih (perform t c) (perform_keeps_count t c h)

theorem symtable.deck_enterScopes (names : List String) (t : symtable K V) :
    (enterScopes t names).deck =
      (names.reverse.map (fun n => ({ Name := n, Symbols := StdMap.empty } : Scope K V))) ++
        t.deck := by
  induction names generalizing t with
  | nil => rfl
  | cons n names ih =>
    show (enterScopes (t.enterScope n) names).deck = _
    rw [ih (t.enterScope n)]
    simp [enterScope]

/-- What `insert` does when a scope is open. -/
theorem symtable.insert_of_cons (t : symtable K V) (front : Scope K V)
    (rest : List (Scope K V)) (k : K) (v : V) (h : t.deck = front :: rest) :
    t.insert k v =
      (.ok (), { Size := if front.Symbols.count k = 1 then t.Size else t.Size + 1,
                 deck := { front with Symbols := front.Symbols.assign k v } :: rest }) := by
  unfold insert
  rw [h]
  by_cases hc : front.Symbols.count k = 1
  · simp only [hc, if_true]
  · simp only [hc, if_false]

/-- The bindings of a map after the statement `m[k] = v`. -/
theorem StdMap.mem_entries_assign (m : StdMap K V) (k j : K) (v w : V) :
    (j, w) ∈ (m.assign k v).entries ↔ (j = k ∧ w = v) ∨ (j ≠ k ∧ (j, w) ∈ m.entries) := by
  rw [← findEntry_eq_some_iff j w _ (m.assign k v).ascending,
    ← findEntry_eq_some_iff j w _ m.ascending]
  show findEntry j (assignEntry k v m.entries) = some w ↔ _
  rw [findEntry_assignEntry]
  by_cases hj : j = k
  · simp only [hj, if_true, Option.some.injEq, true_and, ne_eq, not_true_eq_false, false_and,
      or_false]
    exact eq_comm
  · simp only [hj, if_false, false_and, false_or, ne_eq, not_false_eq_true, true_and]

theorem symtable.lookup_CURRENT_eq (t : symtable K V) (front : Scope K V)
    (rest : List (Scope K V)) (k : K) (symbol : V) (h : t.deck = front :: rest) :
    t.lookup k symbol .CURRENT =
      match lookupIn front k with
      | some r => r
      | none => .ok (false, symbol) := by
  unfold lookup
  rw [h]

theorem symtable.lookup_GLOBAL_eq (t : symtable K V) (k : K) (symbol : V) (h : t.deck ≠ []) :
    t.lookup k symbol .GLOBAL =
      match lookupIn (t.deck.getLast h) k with
      | some r => r
      | none => .ok (false, symbol) := by
  obtain ⟨sz, d⟩ := t
  cases d with
  | nil => exact absurd rfl h
  | cons front rest => rfl

/-- The number of open scopes after a call. -/
theorem symtable.length_deck_perform (t : symtable K V) (c : Call K V) :
    (perform t c).deck.length =
      if c.isEnter then t.deck.length + 1
      else if c.isExit then t.deck.length - 1
      else t.deck.length := by
  obtain ⟨sz, d⟩ := t
  cases c with
  | enterScope name => rfl
  | exitScope => cases d <;> rfl
  | insert key symbol =>
    cases d with
    | nil => rfl
    | cons front rest =>
      simp only [perform, insert_of_cons ⟨sz, front :: rest⟩ front rest key symbol rfl,
        Call.isEnter, Call.isExit]
      rfl

theorem symtable.performAll_concat (t : symtable K V) (l : List (Call K V)) (c : Call K V) :
    performAll t (l ++ [c]) = perform (performAll t l) c := by
  simp [performAll, List.foldl_append]

/-- While no more scopes were exited than entered, the open scopes are the
entered ones less the exited ones. -/
theorem symtable.length_deck_take (calls : List (Call K V))
    (h : ∀ n, n ≤ calls.length →
      (calls.take n).countP Call.isExit ≤ (calls.take n).countP Call.isEnter) :
    ∀ n, n ≤ calls.length →
      (performAll (new : symtable K V) (calls.take n)).deck.length +
        (calls.take n).countP Call.isExit = (calls.take n).countP Call.isEnter := by
  intro n
  induction n with
  | zero => intro _; rfl
  | succ n ih =>
    intro hn
    have hlt : n < calls.length := hn
    have ih2 := ih (Nat.le_of_lt hlt)
    have hbal := h (n + 1) hn
    have htake : calls.take (n + 1) = calls.take n ++ [calls[n]] := by
      rw [List.take_succ, List.getElem?_eq_getElem hlt]
      rfl
    rw [htake] at hbal ⊢
    rw [performAll_concat, length_deck_perform]
    simp only [List.countP_append, List.countP_cons, List.countP_nil] at hbal ⊢
    generalize calls[n] = c at hbal ⊢
    cases c with
    | enterScope name =>
      simp only [Call.isEnter, Call.isExit, if_true, Bool.false_eq_true, if_false] at hbal ⊢
      omega
    | exitScope =>
      simp only [Call.isEnter, Call.isExit, if_true, Bool.false_eq_true, if_false] at hbal ⊢
      omega
    | insert key symbol =>
      simp only [Call.isEnter, Call.isExit, Bool.false_eq_true, if_false] at hbal ⊢
      omega

/-- What `exitScope` does when a scope is open. -/
theorem symtable.exitScope_of_cons (t : symtable K V) (front : Scope K V)
    (rest : List (Scope K V)) (h : t.deck = front :: rest) :
    t.exitScope = (.ok (), { Size := t.Size - (front.Symbols.size : Int), deck := rest }) := by
  unfold exitScope
  rw [h]

/-- The key just assigned is a key of the map. -/
theorem StdMap.count_assign_self (m : StdMap K V) (k : K) (v : V) :
    (m.assign k v).count k = 1 :=
  (StdMap.count_eq_one_iff _ k).mpr
    ((StdMap.mem_entryKeys_assignEntry k v m.entries k).mpr (Or.inl rfl))

/-- A run of `insert` calls touches the front scope only, and moves the
counter by as much as the number of bindings of that scope. -/
theorem symtable.inserts_of_cons (pairs : List (K × V)) (t : symtable K V)
    (front : Scope K V) (rest : List (Scope K V)) (h : t.deck = front :: rest) :
    ∃ front', (t.inserts pairs).deck = front' :: rest ∧ front'.Name = front.Name ∧
      (t.inserts pairs).Size - (front'.Symbols.size : Int) =
        t.Size - (front.Symbols.size : Int) := by
  induction pairs generalizing t front with
  | nil => exact ⟨front, h, rfl, rfl⟩
  | cons pair pairs ih =>
    have hstep : t.inserts (pair :: pairs) = (t.insert pair.1 pair.2).2.inserts pairs := rfl
    have hins := insert_of_cons t front rest pair.1 pair.2 h
    obtain ⟨front', hdeck, hname, hsize⟩ :=
      ih (t.insert pair.1 pair.2).2 { front with Symbols := front.Symbols.assign pair.1 pair.2 }
        (by rw [hins])
    refine ⟨front', by rw [hstep]; exact hdeck, hname, ?_⟩
    rw [hstep, hsize, hins]
    simp only [StdMap.size_assign]
    by_cases hc : front.Symbols.count pair.1 = 1
    · simp only [hc, if_true]
    · simp only [hc, if_false]
      push_cast
      omega

/-- After `insert(k, v)` the test of `lookup` on the front scope finds `v`. -/
theorem symtable.lookup_insert_self (t : symtable K V) (k : K) (v symbol : V)
    (hopen : t.deck ≠ []) :
    (t.insert k v).2.lookup k symbol .CURRENT = .ok (true, v) ∧
    (t.insert k v).2.lookup k symbol .ALL = .ok (true, v) := by
  obtain ⟨sz, d⟩ := t
  cases d with
  | nil => exact absurd rfl hopen
  | cons front rest =>
    rw [insert_of_cons ⟨sz, front :: rest⟩ front rest k v rfl]
    have hb : Scope.binds ({ front with Symbols := front.Symbols.assign k v } : Scope K V) k v :=
      (StdMap.mem_entries_assign _ k k v v).mpr (Or.inl ⟨rfl, rfl⟩)
    constructor
    · rw [lookup_CURRENT_eq _ _ rest k symbol rfl, lookupIn_of_binds _ k v hb]
    · rw [lookup_ALL_eq _ _ _ (List.cons_ne_nil _ _)]
      exact lookupLoop_hit k symbol v _ rest hb

/-- Inserting again the key just inserted keeps the counter. -/
theorem symtable.size_insert_again (t : symtable K V) (k : K) (v w : V) :
    ((t.insert k v).2.insert k w).2.size = (t.insert k v).2.size := by
  obtain ⟨sz, d⟩ := t
  cases d with
  | nil => rfl
  | cons front rest =>
    rw [insert_of_cons ⟨sz, front :: rest⟩ front rest k v rfl]
    rw [insert_of_cons _ { front with Symbols := front.Symbols.assign k v } rest k w rfl]
    simp only [size, StdMap.count_assign_self, if_true]

/-- The test of `lookup` on a scope, for a key other than the one assigned,
is not changed by the assignment. -/
theorem symtable.lookupIn_assign_of_ne (s : Scope K V) (j k : K) (v : V) (h : j ≠ k) :
    lookupIn ({ s with Symbols := s.Symbols.assign k v } : Scope K V) j = lookupIn s j := by
  simp only [lookupIn, StdMap.count, StdMap.atKey, StdMap.assign, findEntry_assignEntry, h,
    if_false]

/-- The three forms of `lookup` when the deque is `front :: rest`. -/
theorem symtable.lookup_of_cons (sz : Int) (front : Scope K V) (rest : List (Scope K V))
    (k : K) (symbol : V) :
    (({ Size := sz, deck := front :: rest } : symtable K V).lookup k symbol .CURRENT =
      match lookupIn front k with
      | some r => r
      | none => .ok (false, symbol)) ∧
    (({ Size := sz, deck := front :: rest } : symtable K V).lookup k symbol .GLOBAL =
      match lookupIn ((front :: rest).getLast (List.cons_ne_nil front rest)) k with
      | some r => r
      | none => .ok (false, symbol)) ∧
    (({ Size := sz, deck := front :: rest } : symtable K V).lookup k symbol .ALL =
      match lookupIn front k with
      | some r => r
      | none => lookupLoop k symbol rest) :=
  ⟨rfl, rfl, rfl⟩

end TableFacts

/-! ## The contract -/

section Contract

variable {K V : Type} [LinearOrder K]

open symtable

/-- C1: in every state reached from the empty table by a sequence of
`enterScope`, `insert` and `exitScope` calls, returning or throwing, `size()`
is the sum over the open scopes of the number of bindings of the scope, and so
is 0 when no scope is open. -/
theorem size_eq_sum_of_scope_bindings (calls : List (Call K V)) :
    (performAll (new : symtable K V) calls).size =
      ((performAll (new : symtable K V) calls).deck.map
        (fun s => (s.Symbols.entries.length : Int))).sum ∧
    ((performAll (new : symtable K V) calls).deck = [] →
      (performAll (new : symtable K V) calls).size = 0) := by
  have h := performAll_keeps_count calls (new : symtable K V) rfl
  refine ⟨h, fun hd => ?_⟩
  show (performAll (new : symtable K V) calls).Size = 0
  rw [h, hd]
  rfl

/-- C2: with a scope open, `lookup(k, ALL)` returns found with the value `k`
has in the first scope, counted from the current scope toward the global one,
that has a binding of `k`; it returns not-found exactly when no open scope has
a binding of `k`. -/
theorem lookup_ALL_innermost (t : symtable K V) (k : K) (symbol : V) (hopen : t.deck ≠ []) :
    (∀ above s below v, t.deck = above ++ s :: below → (∀ a ∈ above, ¬ a.hasKey k) →
      s.binds k v → t.lookup k symbol .ALL = .ok (true, v)) ∧
    ((∃ w, t.lookup k symbol .ALL = .ok (false, w)) ↔ ∀ s ∈ t.deck, ¬ s.hasKey k) ∧
    (∃ r, t.lookup k symbol .ALL = .ok r) := by
  rw [lookup_ALL_eq t k symbol hopen]
  refine ⟨?_, ?_, ?_⟩
  · intro above s below v hd habove hs
    rw [hd, lookupLoop_skip k symbol above (s :: below) habove]
    exact lookupLoop_hit k symbol v s below hs
  · rcases lookupLoop_cases k symbol t.deck with ⟨hall, hres⟩ | ⟨above, s, below, v, hd, _, hs, hres⟩
    · exact ⟨fun _ => hall, fun _ => ⟨symbol, hres⟩⟩
    · constructor
      · rintro ⟨w, hw⟩
        rw [hres] at hw
        simp at hw
      · intro hall
        have hmem : s ∈ t.deck := by rw [hd]; simp
        exact absurd ((Scope.hasKey_iff_exists_binds s k).mpr ⟨v, hs⟩) (hall s hmem)
  · rcases lookupLoop_cases k symbol t.deck with ⟨_, hres⟩ | ⟨_, _, _, v, _, _, _, hres⟩
    · exact ⟨_, hres⟩
    · exact ⟨_, hres⟩

/-- C2 at the sample table: key 1 is bound in both scopes and the value of
the current scope is returned. -/
theorem lookup_ALL_innermost_witness :
    sampleTable.deck ≠ [] ∧ sampleTable.lookup 1 0 .ALL = .ok (true, 20) :=
  ⟨List.ne_nil_of_length_pos (by decide),
   (lookup_ALL_innermost sampleTable 1 0 (List.ne_nil_of_length_pos (by decide))).1
     [] ⟨"f", (StdMap.empty : StdMap Nat Nat).assign 1 20⟩
     [⟨"g", ((StdMap.empty : StdMap Nat Nat).assign 1 10).assign 2 5⟩] 20 rfl
     (fun a ha => absurd ha (List.not_mem_nil a)) (List.mem_singleton.mpr rfl)⟩

/-- C3: when the global scope binds `k` to `vOut`, after entering one or more
scopes and inserting `k` with `vIn` in the current one, `lookup(k, ALL)`
returns found with `vIn` and `lookup(k, GLOBAL)` returns found with `vOut`. -/
theorem shadowing (t : symtable K V) (k : K) (vOut vIn symbol : V) (names : List String)
    (hopen : t.deck ≠ []) (hglobal : (t.deck.getLast hopen).binds k vOut)
    (hnames : names ≠ []) :
    ((enterScopes t names).insert k vIn).1 = .ok () ∧
    ((enterScopes t names).insert k vIn).2.lookup k symbol .ALL = .ok (true, vIn) ∧
    ((enterScopes t names).insert k vIn).2.lookup k symbol .GLOBAL = .ok (true, vOut) := by
  have hdeck := deck_enterScopes names t
  obtain ⟨n, inner, hrev⟩ : ∃ n inner, names.reverse = n :: inner := by
    cases hr : names.reverse with
    | nil => exact absurd (List.reverse_eq_nil_iff.mp hr) hnames
    | cons n inner => exact ⟨n, inner, rfl⟩
  rw [hrev, List.map_cons, List.cons_append] at hdeck
  rw [insert_of_cons _ _ _ k vIn hdeck]
  refine ⟨rfl, ?_, ?_⟩
  · rw [lookup_ALL_eq _ _ _ (by simp)]
    exact lookupLoop_hit k symbol vIn _ _
      ((StdMap.mem_entries_assign _ k k vIn vIn).mpr (Or.inl ⟨rfl, rfl⟩))
  · rw [lookup_GLOBAL_eq _ _ _ (by simp)]
    have hlast : ∀ (a : Scope K V) (l : List (Scope K V)) (h1 : a :: (l ++ t.deck) ≠ []),
        (a :: (l ++ t.deck)).getLast h1 = t.deck.getLast hopen := by
      intro a l h1
      rw [List.getLast_cons (by simp [hopen]), List.getLast_append_of_ne_nil]
    simp only [hlast]
    rw [lookupIn_of_binds _ k vOut hglobal]

/-- C3 at the table `outerTable`, entering the scopes "f" and "h". -/
theorem shadowing_witness :
    ((outerTable.enterScopes ["f", "h"]).insert 1 20).2.lookup 1 0 .ALL = .ok (true, 20) ∧
    ((outerTable.enterScopes ["f", "h"]).insert 1 20).2.lookup 1 0 .GLOBAL = .ok (true, 10) :=
  (shadowing outerTable 1 10 20 0 ["f", "h"] (List.ne_nil_of_length_pos (by decide))
    (by decide) (by decide)).2

/-- C4: with a scope open, `insert(k, v)` returns normally, touches the
current scope only, and leaves `k` bound to `v` there; when the current scope
had a binding of `k` (whatever the outer scopes hold) the number of its
bindings and `size()` stay as they were, otherwise both grow by one. -/
theorem insert_replaces_or_adds (t : symtable K V) (front : Scope K V)
    (rest : List (Scope K V)) (k : K) (v : V) (h : t.deck = front :: rest) :
    ∃ front', t.insert k v = (.ok (), { Size := (t.insert k v).2.size, deck := front' :: rest }) ∧
      front'.Name = front.Name ∧
      front'.binds k v ∧ (∀ w, front'.binds k w → w = v) ∧
      (∀ j w, j ≠ k → (front'.binds j w ↔ front.binds j w)) ∧
      (front.hasKey k →
        (t.insert k v).2.size = t.size ∧ front'.Symbols.size = front.Symbols.size) ∧
      (¬ front.hasKey k →
        (t.insert k v).2.size = t.size + 1 ∧ front'.Symbols.size = front.Symbols.size + 1) := by
  rw [insert_of_cons t front rest k v h]
  refine ⟨{ front with Symbols := front.Symbols.assign k v }, rfl, rfl, ?_, ?_, ?_, ?_, ?_⟩
  · exact (StdMap.mem_entries_assign _ k k v v).mpr (Or.inl ⟨rfl, rfl⟩)
  · intro w hw
    rcases (StdMap.mem_entries_assign _ k k v w).mp hw with ⟨_, hw⟩ | ⟨hne, _⟩
    · exact hw
    · exact absurd rfl hne
  · intro j w hj
    show (j, w) ∈ (front.Symbols.assign k v).entries ↔ (j, w) ∈ front.Symbols.entries
    rw [StdMap.mem_entries_assign]
    simp [hj]
  · intro hk
    have hc : front.Symbols.count k = 1 := (StdMap.count_eq_one_iff _ k).mpr hk
    simp [size, StdMap.size_assign, hc]
  · intro hk
    have hc : ¬ front.Symbols.count k = 1 := fun hc => hk ((StdMap.count_eq_one_iff _ k).mp hc)
    simp [size, StdMap.size_assign, hc]

/-- C4 at the sample table, for key 2, which the outer scope binds and the
current scope does not: `size()` goes from 3 to 4. -/
theorem insert_replaces_or_adds_witness :
    sampleTable.size = 3 ∧ (sampleTable.insert 2 7).1 = .ok () ∧
      (sampleTable.insert 2 7).2.size = 4 := by
  obtain ⟨front', heq, -, -, -, -, -, hnew⟩ :=
    insert_replaces_or_adds sampleTable
      ⟨"f", (StdMap.empty : StdMap Nat Nat).assign 1 20⟩
      [⟨"g", ((StdMap.empty : StdMap Nat Nat).assign 1 10).assign 2 5⟩] 2 7 rfl
  refine ⟨rfl, ?_, (hnew (by decide)).1⟩
  rw [heq]

/-- C5: `exitScope`, `curScope`, `insert` and `lookup` with any option throw
exactly when no scope is open; what they throw is then the `runtime_error` of
the empty table; and a throwing `exitScope` or `insert` leaves the table (the
deque and the counter) as it was, the other two being `const`. -/
theorem throws_iff_no_scope_open (t : symtable K V) (k : K) (v symbol : V)
    (option : ScopeOption) :
    (∀ e, t.exitScope.1 = .error e ↔
      (t.deck = [] ∧ e = .runtime_error "symtable::exitScape: empty")) ∧
    (∀ e, t.curScope = .error e ↔
      (t.deck = [] ∧ e = .runtime_error "symtable::exitScape: empty")) ∧
    (∀ e, (t.insert k v).1 = .error e ↔
      (t.deck = [] ∧ e = .runtime_error "symtable::exitScape: empty")) ∧
    (∀ e, t.lookup k symbol option = .error e ↔
      (t.deck = [] ∧ e = .runtime_error "symtable::exitScope: empty")) ∧
    (t.deck = [] → t.exitScope.2 = t ∧ (t.insert k v).2 = t) := by
  obtain ⟨sz, d⟩ := t
  cases d with
  | nil =>
    refine ⟨?_, ?_, ?_, ?_, fun _ => ⟨rfl, rfl⟩⟩ <;>
    · intro e
      simp only [exitScope, curScope, symtable.insert, lookup, true_and, Except.error.injEq]
      exact eq_comm
  | cons front rest =>
    refine ⟨?_, ?_, ?_, ?_, fun hd => absurd hd (List.cons_ne_nil _ _)⟩
    · intro e
      simp [exitScope]
    · intro e
      simp [curScope]
    · intro e
      rw [insert_of_cons _ front rest k v rfl]
      simp
    · intro e
      have hIn : ∀ s : Scope K V, ∀ r, lookupIn s k = some r → r ≠ .error e := by
        intro s r hr
        rcases lookupIn_cases s k with ⟨_, hnone⟩ | ⟨w, _, hsome⟩
        · rw [hnone] at hr
          cases hr
        · rw [hsome] at hr
          cases hr
          simp
      simp only [List.cons_ne_nil, false_and, iff_false]
      cases option with
      | ALL =>
        rw [lookup_ALL_eq _ _ _ (List.cons_ne_nil _ _)]
        rcases lookupLoop_cases k symbol (front :: rest) with ⟨_, hres⟩ | ⟨_, _, _, _, _, _, _, hres⟩
        · simp only [hres]
          simp
        · simp only [hres]
          simp
      | CURRENT =>
        rw [lookup_CURRENT_eq _ front rest k symbol rfl]
        cases hl : lookupIn front k with
        | none => simp
        | some r => exact hIn front r hl
      | GLOBAL =>
        rw [lookup_GLOBAL_eq _ _ _ (List.cons_ne_nil _ _)]
        cases hl : lookupIn ((front :: rest).getLast (List.cons_ne_nil _ _)) k with
        | none => simp
        | some r => exact hIn _ r hl

/-- C6: with a scope open, `exitScope()` returns normally and removes the
front scope only: the other scopes stay, in their order, the scope entered
before becomes the current one, `numscopes()` drops by one and `size()` by the
number of bindings of the removed scope. -/
theorem exitScope_pops_current (t : symtable K V) (front : Scope K V)
    (rest : List (Scope K V)) (h : t.deck = front :: rest) :
    t.exitScope.1 = .ok () ∧
    t.exitScope.2.deck = rest ∧
    (∀ s below, rest = s :: below → t.exitScope.2.curScope = .ok s) ∧
    t.exitScope.2.numscopes = t.numscopes - 1 ∧
    t.exitScope.2.size = t.size - (front.Symbols.entries.length : Int) := by
  obtain ⟨sz, d⟩ := t
  subst h
  refine ⟨rfl, rfl, ?_, ?_, rfl⟩
  · intro s below hrest
    subst hrest
    rfl
  · simp [exitScope, numscopes]

/-- C6 at the sample table: leaving scope "f" makes "g" the current scope,
one scope and two bindings remain. -/
theorem exitScope_pops_current_witness :
    sampleTable.numscopes = 2 ∧ sampleTable.size = 3 ∧
    sampleTable.exitScope.2.numscopes = 2 - 1 ∧ sampleTable.exitScope.2.size = 3 - 1 :=
  ⟨rfl, rfl,
   (exitScope_pops_current sampleTable
      ⟨"f", (StdMap.empty : StdMap Nat Nat).assign 1 20⟩
      [⟨"g", ((StdMap.empty : StdMap Nat Nat).assign 1 10).assign 2 5⟩] rfl).2.2.2.1,
   (exitScope_pops_current sampleTable
      ⟨"f", (StdMap.empty : StdMap Nat Nat).assign 1 20⟩
      [⟨"g", ((StdMap.empty : StdMap Nat Nat).assign 1 10).assign 2 5⟩] rfl).2.2.2.2⟩

/-- C7: from the empty table, when no prefix of a call sequence holds more
`exitScope` than `enterScope` calls, `numscopes()` after each prefix is the
number of its `enterScope` calls less the number of its `exitScope` calls,
whatever `insert` calls stand between them. -/
theorem numscopes_eq_entered_minus_exited (calls : List (Call K V))
    (h : ∀ n, n ≤ calls.length →
      (calls.take n).countP Call.isExit ≤ (calls.take n).countP Call.isEnter) :
    ∀ n, n ≤ calls.length →
      (performAll (new : symtable K V) (calls.take n)).numscopes =
        ((calls.take n).countP Call.isEnter : Int) - ((calls.take n).countP Call.isExit : Int) := by
  intro n hn
  have hlen := length_deck_take calls h n hn
  unfold numscopes
  omega

/-- C7 at a sequence of two enters, two exits and inserts in between: one
scope is open after the first four calls, none after all six. -/
theorem numscopes_eq_entered_minus_exited_witness :
    (performAll (new : symtable Nat Nat)
      ([.enterScope "g", .insert 1 10, .enterScope "f", .exitScope, .insert 2 5,
        .exitScope].take 4)).numscopes = 1 ∧
    (performAll (new : symtable Nat Nat)
      ([.enterScope "g", .insert 1 10, .enterScope "f", .exitScope, .insert 2 5,
        .exitScope].take 6)).numscopes = 0 :=
  ⟨numscopes_eq_entered_minus_exited
      [.enterScope "g", .insert 1 10, .enterScope "f", .exitScope, .insert 2 5, .exitScope]
      (by decide) 4 (by decide),
   numscopes_eq_entered_minus_exited
      [.enterScope "g", .insert 1 10, .enterScope "f", .exitScope, .insert 2 5, .exitScope]
      (by decide) 6 (by decide)⟩

/-- C8: with a scope open, `lookup(k, CURRENT)` returns found with `v` exactly
when the front scope binds `k` to `v`, and `lookup(k, GLOBAL)` returns found
with `v` exactly when the back scope binds `k` to `v`; no other scope takes
part. -/
theorem lookup_CURRENT_GLOBAL_iff (t : symtable K V) (k : K) (symbol v : V)
    (hopen : t.deck ≠ []) :
    (t.lookup k symbol .CURRENT = .ok (true, v) ↔ (t.deck.head hopen).binds k v) ∧
    (t.lookup k symbol .GLOBAL = .ok (true, v) ↔ (t.deck.getLast hopen).binds k v) := by
  have hone : ∀ s : Scope K V,
      ((match lookupIn s k with
        | some r => r
        | none => .ok (false, symbol)) = .ok (true, v)) ↔ s.binds k v := by
    intro s
    rcases lookupIn_cases s k with ⟨hno, hnone⟩ | ⟨w, hw, hsome⟩
    · rw [hnone]
      constructor
      · intro hres
        simp at hres
      · intro hb
        exact absurd ((Scope.hasKey_iff_exists_binds s k).mpr ⟨v, hb⟩) hno
    · rw [hsome]
      constructor
      · intro hres
        simp only [Except.ok.injEq, Prod.mk.injEq, true_and] at hres
        rw [← hres]
        exact hw
      · intro hb
        rw [Scope.binds_unique s k w v hw hb]
  constructor
  · obtain ⟨sz, d⟩ := t
    cases d with
    | nil => exact absurd rfl hopen
    | cons front rest =>
      rw [lookup_CURRENT_eq _ front rest k symbol rfl]
      exact hone front
  · rw [lookup_GLOBAL_eq t k symbol hopen]
    exact hone _

/-- C8 at the sample table: key 1 is 20 in the current scope and 10 in the
global scope. -/
theorem lookup_CURRENT_GLOBAL_iff_witness :
    sampleTable.lookup 1 0 .CURRENT = .ok (true, 20) ∧
    ¬ sampleTable.lookup 1 0 .GLOBAL = .ok (true, 20) :=
  ⟨(lookup_CURRENT_GLOBAL_iff sampleTable 1 0 20
      (List.ne_nil_of_length_pos (by decide))).1.mpr (by decide),
   fun hg => absurd ((lookup_CURRENT_GLOBAL_iff sampleTable 1 0 20
      (List.ne_nil_of_length_pos (by decide))).2.mp hg) (by decide)⟩

/-- C9: with a scope open, a lookup whose selected scopes (all of them for
`ALL`, the front one for `CURRENT`, the back one for `GLOBAL`) have no binding
of `k` returns normally with `false` and the caller's `symbol` as it was; a
lookup whose selected scopes have a binding of `k` returns `true` and the
value one of them binds `k` to. -/
theorem lookup_leaves_symbol_when_not_found (t : symtable K V) (k : K) (symbol : V)
    (hopen : t.deck ≠ []) :
    ((∀ s ∈ t.deck, ¬ s.hasKey k) → t.lookup k symbol .ALL = .ok (false, symbol)) ∧
    ((∃ s ∈ t.deck, s.hasKey k) →
      ∃ s ∈ t.deck, ∃ v, s.binds k v ∧ t.lookup k symbol .ALL = .ok (true, v)) ∧
    (¬ (t.deck.head hopen).hasKey k → t.lookup k symbol .CURRENT = .ok (false, symbol)) ∧
    ((t.deck.head hopen).hasKey k →
      ∃ v, (t.deck.head hopen).binds k v ∧ t.lookup k symbol .CURRENT = .ok (true, v)) ∧
    (¬ (t.deck.getLast hopen).hasKey k → t.lookup k symbol .GLOBAL = .ok (false, symbol)) ∧
    ((t.deck.getLast hopen).hasKey k →
      ∃ v, (t.deck.getLast hopen).binds k v ∧ t.lookup k symbol .GLOBAL = .ok (true, v)) := by
  have hmiss : ∀ s : Scope K V, ¬ s.hasKey k →
      (match lookupIn s k with
        | some r => r
        | none => .ok (false, symbol)) = .ok (false, symbol) := by
    intro s hs
    rw [lookupIn_of_not_hasKey s k hs]
  have hhit : ∀ s : Scope K V, s.hasKey k →
      ∃ v, s.binds k v ∧
        (match lookupIn s k with
          | some r => r
          | none => .ok (false, symbol)) = .ok (true, v) := by
    intro s hs
    obtain ⟨v, hv⟩ := (Scope.hasKey_iff_exists_binds s k).mp hs
    exact ⟨v, hv, by rw [lookupIn_of_binds s k v hv]⟩
  have hcur : t.lookup k symbol .CURRENT =
      match lookupIn (t.deck.head hopen) k with
      | some r => r
      | none => .ok (false, symbol) := by
    obtain ⟨sz, d⟩ := t
    cases d with
    | nil => exact absurd rfl hopen
    | cons front rest => rfl
  rw [hcur, lookup_GLOBAL_eq t k symbol hopen, lookup_ALL_eq t k symbol hopen]
  refine ⟨?_, ?_, hmiss _, hhit _, hmiss _, hhit _⟩
  · intro hall
    rcases lookupLoop_cases k symbol t.deck with ⟨_, hres⟩ | ⟨above, s, below, v, hd, _, hs, _⟩
    · exact hres
    · have hmem : s ∈ t.deck := by rw [hd]; simp
      exact absurd ((Scope.hasKey_iff_exists_binds s k).mpr ⟨v, hs⟩) (hall s hmem)
  · rintro ⟨s0, hs0, hk0⟩
    rcases lookupLoop_cases k symbol t.deck with ⟨hall, _⟩ | ⟨above, s, below, v, hd, _, hs, hres⟩
    · exact absurd hk0 (hall s0 hs0)
    · exact ⟨s, by rw [hd]; simp, v, hs, hres⟩

/-- C9 at the sample table: key 2 is bound in the global scope only, a
`CURRENT` lookup of it hands back the caller's 99, an `ALL` lookup of key 3,
bound nowhere, does the same. -/
theorem lookup_leaves_symbol_when_not_found_witness :
    sampleTable.lookup 2 99 .CURRENT = .ok (false, 99) ∧
    sampleTable.lookup 3 99 .ALL = .ok (false, 99) :=
  ⟨(lookup_leaves_symbol_when_not_found sampleTable 2 99
      (List.ne_nil_of_length_pos (by decide))).2.2.1 (by decide),
   (lookup_leaves_symbol_when_not_found sampleTable 3 99
      (List.ne_nil_of_length_pos (by decide))).1 (by decide)⟩

/-- C10, as stated, fails: after `enterScope("g"); insert(1, 1);
enterScope("f"); insert(1, 2)` the open scopes hold one distinct key between
them and `size()` is 2. -/
theorem size_ne_distinctKeyCount :
    shadowedTable.size = 2 ∧ distinctKeyCount shadowedTable.deck = 1 ∧
    shadowedTable.size ≠ (distinctKeyCount shadowedTable.deck : Int) := by
  decide

/-- C10, amended: in every state reached from the empty table, `size()` is
the sum over the open scopes of the number of distinct keys of the scope, a
key bound in several open scopes counting once for each; and inserting a key
the current scope already has leaves `size()` as it was. -/
theorem size_eq_sum_of_distinct_keys_per_scope (calls : List (Call K V)) (k : K) (w : V) :
    (performAll (new : symtable K V) calls).size =
      ((performAll (new : symtable K V) calls).deck.map
        (fun s => ((entryKeys s.Symbols.entries).dedup.length : Int))).sum ∧
    (∀ front rest, (performAll (new : symtable K V) calls).deck = front :: rest →
      front.hasKey k →
      ((performAll (new : symtable K V) calls).insert k w).2.size =
        (performAll (new : symtable K V) calls).size) := by
  constructor
  · have h := performAll_keeps_count calls (new : symtable K V) rfl
    simp only [StdMap.dedup_keys]
    simp only [entryKeys, List.length_map]
    exact h
  · intro front rest hdeck hkey
    rw [insert_of_cons _ front rest k w hdeck]
    have hc : front.Symbols.count k = 1 := (StdMap.count_eq_one_iff _ k).mpr hkey
    simp [size, hc]

/-- C10 amended, at the calls that build `shadowedTable`: `size()` is 2, one
for each scope, and inserting key 1 again keeps it 2. -/
theorem size_eq_sum_of_distinct_keys_per_scope_witness :
    (performAll (new : symtable Nat Nat)
      [.enterScope "g", .insert 1 1, .enterScope "f", .insert 1 2]).size = 1 + 1 ∧
    ((performAll (new : symtable Nat Nat)
      [.enterScope "g", .insert 1 1, .enterScope "f", .insert 1 2]).insert 1 3).2.size = 2 :=
  ⟨(size_eq_sum_of_distinct_keys_per_scope
      [.enterScope "g", .insert 1 1, .enterScope "f", .insert 1 2] 1 3).1,
   (size_eq_sum_of_distinct_keys_per_scope
      [.enterScope "g", .insert 1 1, .enterScope "f", .insert 1 2] 1 3).2
      ⟨"f", (StdMap.empty : StdMap Nat Nat).assign 1 2⟩
      [⟨"g", (StdMap.empty : StdMap Nat Nat).assign 1 1⟩] rfl (by decide)⟩

/-- C11: from any table, `enterScope(n)`, then any run of `insert` calls, then
`exitScope()` returns normally and gives back the table it started from, the
deque with its scopes, names, bindings and order and the counter `Size`; every
lookup then returns what it returned before. -/
theorem enter_inserts_exit_restores (t : symtable K V) (name : String)
    (pairs : List (K × V)) :
    ((t.enterScope name).inserts pairs).exitScope.1 = .ok () ∧
    ((t.enterScope name).inserts pairs).exitScope.2 = t ∧
    (∀ k symbol option,
      ((t.enterScope name).inserts pairs).exitScope.2.lookup k symbol option =
        t.lookup k symbol option) := by
  obtain ⟨front', hdeck, -, hsize⟩ :=
    inserts_of_cons pairs (t.enterScope name) { Name := name, Symbols := StdMap.empty } t.deck rfl
  have hexit := exitScope_of_cons _ front' t.deck hdeck
  have hback : ((t.enterScope name).inserts pairs).exitScope.2 = t := by
    rw [hexit, hsize]
    obtain ⟨sz, d⟩ := t
    simp [enterScope, StdMap.size, StdMap.empty]
  refine ⟨by rw [hexit], hback, ?_⟩
  intro k symbol option
  rw [hback]

/-- C11 at the calls of the specification, keys being strings: after
`enterScope("g"); insert("x", 1); enterScope("f"); insert("x", 2)` the lookup
of "x" finds 2; after `exitScope()` it finds 1 and `size()` is 1. -/
theorem enter_inserts_exit_restores_witness :
    (((((new : symtable String Nat).enterScope "g").insert "x" 1).2.enterScope "f").insert
      "x" 2).2.lookup "x" 0 .ALL = .ok (true, 2) ∧
    (((((new : symtable String Nat).enterScope "g").insert "x" 1).2.enterScope "f").insert
      "x" 2).2.exitScope.2.lookup "x" 0 .ALL = .ok (true, 1) ∧
    (((((new : symtable String Nat).enterScope "g").insert "x" 1).2.enterScope "f").insert
      "x" 2).2.exitScope.2.size = 1 := by
  have hback : (((((new : symtable String Nat).enterScope "g").insert "x" 1).2.enterScope
      "f").insert "x" 2).2.exitScope.2 =
      (((new : symtable String Nat).enterScope "g").insert "x" 1).2 :=
    (enter_inserts_exit_restores (((new : symtable String Nat).enterScope "g").insert "x" 1).2
      "f" [("x", 2)]).2.1
  refine ⟨(lookup_insert_self _ "x" 2 0 (List.cons_ne_nil _ _)).2, ?_, ?_⟩
  · rw [hback]
    exact (lookup_insert_self _ "x" 1 0 (List.cons_ne_nil _ _)).2
  · rw [hback]
    rfl

/-- C12: on any table, the empty one included, `enterScope(n)` (which has no
throwing path) raises `numscopes()` by one and keeps `size()`; the current
scope is then a scope named `n` without bindings, the scopes open before
follow it unchanged and in their order, and when none was open the new scope
is the back of the deque as well as its front. -/
theorem enterScope_pushes_empty_scope (t : symtable K V) (name : String) :
    (t.enterScope name).numscopes = t.numscopes + 1 ∧
    (t.enterScope name).size = t.size ∧
    (∃ s, (t.enterScope name).curScope = .ok s ∧ s.Name = name ∧ s.Symbols.entries = [] ∧
      (∀ k, ¬ s.hasKey k) ∧
      (t.enterScope name).deck = s :: t.deck ∧
      (t.deck = [] → (t.enterScope name).deck.getLast? = some s)) := by
  refine ⟨?_, rfl, { Name := name, Symbols := StdMap.empty }, rfl, rfl, rfl, ?_, rfl, ?_⟩
  · simp [numscopes, enterScope]
  · intro k hk
    exact absurd hk (List.not_mem_nil k)
  · intro hd
    simp [enterScope, hd]

/-- C13: with a scope open, after `insert(k, v)` both `lookup(k, CURRENT)` and
`lookup(k, ALL)` return found with `v`. -/
theorem lookup_finds_inserted (t : symtable K V) (k : K) (v symbol : V)
    (hopen : t.deck ≠ []) :
    (t.insert k v).2.lookup k symbol .CURRENT = .ok (true, v) ∧
    (t.insert k v).2.lookup k symbol .ALL = .ok (true, v) :=
  lookup_insert_self t k v symbol hopen

/-- C13 at the calls of the specification, keys being strings: after
`enterScope("global")` `size()` is 0 and `numscopes()` is 1; `insert("a", 10)`
makes `size()` 1, `insert("a", 20)` keeps it 1, and `lookup("a", CURRENT)`
finds 20. -/
theorem lookup_finds_inserted_witness :
    ((new : symtable String Nat).enterScope "global").size = 0 ∧
    ((new : symtable String Nat).enterScope "global").numscopes = 1 ∧
    (((new : symtable String Nat).enterScope "global").insert "a" 10).2.size = 1 ∧
    ((((new : symtable String Nat).enterScope "global").insert "a" 10).2.insert "a" 20).2.size
      = 1 ∧
    ((((new : symtable String Nat).enterScope "global").insert "a" 10).2.insert "a" 20).2.lookup
      "a" 0 .CURRENT = .ok (true, 20) := by
  refine ⟨rfl, rfl, rfl, ?_, ?_⟩
  · rw [size_insert_again]
    rfl
  · exact (lookup_finds_inserted
      (((new : symtable String Nat).enterScope "global").insert "a" 10).2 "a" 20 0
      (List.cons_ne_nil _ _)).1

/-- C16, on the code: with no scope open `dump` under `CURRENT` and under
`GLOBAL` throws nothing; it reaches `deck.front()`, respectively
`deck.back()`, on the empty deque, which has no defined result. -/
theorem dump_CURRENT_GLOBAL_no_scope_unguarded :
    (new : symtable Nat Nat).deck = [] ∧
    (new : symtable Nat Nat).dump toString toString toString .CURRENT = none ∧
    (new : symtable Nat Nat).dump toString toString toString .GLOBAL = none ∧
    (new : symtable Nat Nat).exitScope.1 = .error (.runtime_error "symtable::exitScape: empty") :=
  ⟨rfl, rfl, rfl, rfl⟩

/-- C18: with a scope open, `insert(k, v)` keeps `numscopes()`, every scope
below the current one, the name of the current scope and its bindings of keys
other than `k`; so for a key `j` other than `k` every lookup, under any
option, returns what it returned before. -/
theorem insert_frame (t : symtable K V) (front : Scope K V) (rest : List (Scope K V))
    (k : K) (v : V) (h : t.deck = front :: rest) :
    (t.insert k v).2.numscopes = t.numscopes ∧
    (∃ front', (t.insert k v).2.deck = front' :: rest ∧ front'.Name = front.Name ∧
      ∀ j w, j ≠ k → (front'.binds j w ↔ front.binds j w)) ∧
    (∀ j symbol option, j ≠ k →
      (t.insert k v).2.lookup j symbol option = t.lookup j symbol option) := by
  obtain ⟨sz, d⟩ := t
  have hd : d = front :: rest := h
  subst hd
  rw [insert_of_cons ⟨sz, front :: rest⟩ front rest k v rfl]
  refine ⟨by simp [numscopes], ⟨_, rfl, rfl, ?_⟩, ?_⟩
  · intro j w hj
    show (j, w) ∈ (front.Symbols.assign k v).entries ↔ (j, w) ∈ front.Symbols.entries
    rw [StdMap.mem_entries_assign]
    simp [hj]
  · intro j symbol option hj
    have hfront := lookupIn_assign_of_ne front j k v hj
    cases option with
    | ALL =>
      rw [(lookup_of_cons _ _ rest j symbol).2.2, (lookup_of_cons sz front rest j symbol).2.2,
        hfront]
    | CURRENT =>
      rw [(lookup_of_cons _ _ rest j symbol).1, (lookup_of_cons sz front rest j symbol).1,
        hfront]
    | GLOBAL =>
      rw [(lookup_of_cons _ _ rest j symbol).2.1, (lookup_of_cons sz front rest j symbol).2.1]
      cases rest with
      | nil =>
        simp only [List.getLast_singleton]
        rw [hfront]
      | cons s below => simp only [List.getLast_cons (List.cons_ne_nil s below)]

/-- C18 at the sample table: inserting key 1 in scope "f" leaves the lookups
of key 2 as they were. -/
theorem insert_frame_witness :
    (sampleTable.insert 1 7).2.lookup 2 0 .ALL = .ok (true, 5) ∧
    (sampleTable.insert 1 7).2.lookup 2 0 .CURRENT = .ok (false, 0) ∧
    (sampleTable.insert 1 7).2.lookup 2 0 .GLOBAL = .ok (true, 5) :=
  ⟨((insert_frame sampleTable
      ⟨"f", (StdMap.empty : StdMap Nat Nat).assign 1 20⟩
      [⟨"g", ((StdMap.empty : StdMap Nat Nat).assign 1 10).assign 2 5⟩] 1 7 rfl).2.2
      2 0 .ALL (by decide)).trans rfl,
   ((insert_frame sampleTable
      ⟨"f", (StdMap.empty : StdMap Nat Nat).assign 1 20⟩
      [⟨"g", ((StdMap.empty : StdMap Nat Nat).assign 1 10).assign 2 5⟩] 1 7 rfl).2.2
      2 0 .CURRENT (by decide)).trans rfl,
   ((insert_frame sampleTable
      ⟨"f", (StdMap.empty : StdMap Nat Nat).assign 1 20⟩
      [⟨"g", ((StdMap.empty : StdMap Nat Nat).assign 1 10).assign 2 5⟩] 1 7 rfl).2.2
      2 0 .GLOBAL (by decide)).trans rfl⟩

/-- C19: with a scope open, a `CURRENT` lookup that finds `v` makes the `ALL`
lookup find the same `v`; a `GLOBAL` lookup that finds a value makes the `ALL`
lookup find one; and an `ALL` lookup that returns not-found makes the
`CURRENT` and the `GLOBAL` lookups return not-found. -/
theorem lookup_options_agree (t : symtable K V) (k : K) (symbol : V) (hopen : t.deck ≠ []) :
    (∀ v, t.lookup k symbol .CURRENT = .ok (true, v) → t.lookup k symbol .ALL = .ok (true, v)) ∧
    ((∃ v, t.lookup k symbol .GLOBAL = .ok (true, v)) →
      ∃ w, t.lookup k symbol .ALL = .ok (true, w)) ∧
    ((∃ w, t.lookup k symbol .ALL = .ok (false, w)) →
      t.lookup k symbol .CURRENT = .ok (false, symbol) ∧
      t.lookup k symbol .GLOBAL = .ok (false, symbol)) := by
  obtain ⟨sz, d⟩ := t
  cases d with
  | nil => exact absurd rfl hopen
  | cons front rest =>
    obtain ⟨hcur, hglb, hall⟩ := lookup_of_cons sz front rest k symbol
    have hloop : ({ Size := sz, deck := front :: rest } : symtable K V).lookup k symbol .ALL =
        lookupLoop k symbol (front :: rest) := rfl
    have hlastmem : (front :: rest).getLast (List.cons_ne_nil front rest) ∈ front :: rest :=
      List.getLast_mem _
    refine ⟨?_, ?_, ?_⟩
    · intro v hv
      rw [hcur] at hv
      rw [hall]
      rcases lookupIn_cases front k with ⟨_, hnone⟩ | ⟨w, _, hsome⟩
      · rw [hnone] at hv
        simp at hv
      · rw [hsome] at hv ⊢
        exact hv
    · rintro ⟨v, hv⟩
      rw [hglb] at hv
      rw [hloop]
      rcases lookupLoop_cases k symbol (front :: rest) with
        ⟨hno, _⟩ | ⟨_, _, _, w, _, _, _, hres⟩
      · rw [lookupIn_of_not_hasKey _ k (hno _ hlastmem)] at hv
        simp at hv
      · exact ⟨w, hres⟩
    · rintro ⟨w, hw⟩
      rw [hloop] at hw
      rcases lookupLoop_cases k symbol (front :: rest) with
        ⟨hno, _⟩ | ⟨_, _, _, v, _, _, _, hres⟩
      · rw [hcur, hglb, lookupIn_of_not_hasKey _ k (hno _ (List.mem_cons_self _ _)),
          lookupIn_of_not_hasKey _ k (hno _ hlastmem)]
        exact ⟨rfl, rfl⟩
      · rw [hres] at hw
        simp at hw

/-- C19 at the sample table: key 1 is found with 20 under `CURRENT`, hence
under `ALL`; key 3 is not found under `ALL`, hence not under `GLOBAL`. -/
theorem lookup_options_agree_witness :
    sampleTable.lookup 1 0 .ALL = .ok (true, 20) ∧
    sampleTable.lookup 3 0 .GLOBAL = .ok (false, 0) :=
  ⟨(lookup_options_agree sampleTable 1 0 (List.ne_nil_of_length_pos (by decide))).1 20 rfl,
   ((lookup_options_agree sampleTable 3 0 (List.ne_nil_of_length_pos (by decide))).2.2
      ⟨0, rfl⟩).2⟩

end Contract

end SymTable
